import Mathlib

/-!
Shallow embedding of the `expr` dice-notation library (src/lib.rs, src/parser.rs,
src/error.rs). Strings are modelled as `List Char` (the parser is ASCII-driven),
Rust `u32`/`i32` as `Nat`/`Int` with the 32-bit ranges enforced where the source
enforces them (integer parsing) and with explicit two's-complement wrapping
(`wrapI32`) where the source performs `i32` casts and arithmetic that can
overflow (the realization bookkeeping); a randomness provider is modelled as a function
from call index and upper bound to the drawn value, threaded through an explicit
call-position counter; the potentially non-terminating reroll/explode loop is
given explicit fuel and returns `none` when the fuel is exhausted.
-/

deriving instance DecidableEq for Except

/-- Error kinds of Rust `core::num::ParseIntError`. -/
inductive IntErrorKind
  | empty
  | invalidDigit
  | posOverflow
  | negOverflow
deriving DecidableEq, Repr

/-- Rust `char::to_digit(10)`: the numeric value of a decimal digit. -/
def digitVal (c : Char) : Option Nat :=
  if '0' ≤ c ∧ c ≤ '9' then some (c.toNat - 48) else none

/-- The digit-accumulation loop of Rust `from_str_radix` (radix 10): each step
converts one character to a digit (else `InvalidDigit`) and extends the
accumulator, failing with the given overflow kind when the value would leave
`[0, limit]`. -/
def accumDigits (limit : Nat) (err : IntErrorKind) : List Char → Nat → Except IntErrorKind Nat
  | [], acc => .ok acc
  | c :: cs, acc =>
    match digitVal c with
    | none => .error .invalidDigit
    | some d =>
      if acc * 10 + d ≤ limit then accumDigits limit err cs (acc * 10 + d)
      else .error err

/-- Rust `str::parse::<u32>`: optional sign, then decimal digits; a lone sign is
an invalid digit; a `-` sign admits only zero digits (underflow otherwise). -/
def parseU32 (s : List Char) : Except IntErrorKind Nat :=
  match s with
  | [] => .error .empty
  | ['+'] => .error .invalidDigit
  | ['-'] => .error .invalidDigit
  | '+' :: rest => accumDigits (2 ^ 32 - 1) .posOverflow rest 0
  | '-' :: rest => accumDigits 0 .negOverflow rest 0
  | _ => accumDigits (2 ^ 32 - 1) .posOverflow s 0

/-- Rust `str::parse::<i32>`. -/
def parseI32 (s : List Char) : Except IntErrorKind Int :=
  match s with
  | [] => .error .empty
  | ['+'] => .error .invalidDigit
  | ['-'] => .error .invalidDigit
  | '+' :: rest => (accumDigits (2 ^ 31 - 1) .posOverflow rest 0).map (fun n => (n : Int))
  | '-' :: rest => (accumDigits (2 ^ 31) .negOverflow rest 0).map (fun n => -(n : Int))
  | _ => (accumDigits (2 ^ 31 - 1) .posOverflow s 0).map (fun n => (n : Int))

/-- src/error.rs `Error`. -/
inductive Error
  | BadExpression (expr : List Char)
  | ParseInteger (error : IntErrorKind) (expr : List Char)
deriving DecidableEq, Repr

/-- src/lib.rs `Value`. -/
inductive Value
  | Fixed (n : Int)
  | Bounded (n : Int)
deriving DecidableEq, Repr

/-- src/lib.rs `ExpressionPair`. -/
structure ExpressionPair where
  count : Nat
  value : Int
deriving DecidableEq, Repr

/-- src/lib.rs `Expression` (a single term of a compound dice expression). -/
structure Expression where
  count : Nat
  value : Value
  invert : Bool
  advantage : Bool
  disadvantage : Bool
  reroll : Option Int
  explode : Option Int
deriving DecidableEq, Repr

/-- `Expression::default()`: `u32`/`bool`/`Option` defaults and `Value::Fixed(0)`. -/
def Expression.default : Expression :=
  ⟨0, .Fixed 0, false, false, false, none, none⟩

/-- The dice-separator predicate of the split in `parser::parse_expression`. -/
def isDiceSep (c : Char) : Bool := c = 'd' || c = 'D'

/-- Rust `str::split` on the dice separator: always returns at least one piece,
with one extra piece per separator occurrence. -/
def splitOnSep : List Char → List (List Char)
  | [] => [[]]
  | c :: cs =>
    if isDiceSep c then [] :: splitOnSep cs
    else
      match splitOnSep cs with
      | [] => [[c]]
      | h :: t => (c :: h) :: t

/-- src/parser.rs `parse_expression`: split the span on `d`/`D`; one piece
parses as the value with count 1; two pieces parse as count then value; any
other number of pieces is a malformed expression. Integer-parse failures carry
the full span. -/
def parse_expression (expr : List Char) : Except Error ExpressionPair :=
  match splitOnSep expr with
  | [left] =>
    match parseI32 left with
    | .error e => .error (.ParseInteger e expr)
    | .ok v => .ok ⟨1, v⟩
  | [left, right] =>
    match parseU32 left with
    | .error e => .error (.ParseInteger e expr)
    | .ok c =>
      match parseI32 right with
      | .error e => .error (.ParseInteger e expr)
      | .ok v => .ok ⟨c, v⟩
  | _ => .error (.BadExpression expr)

/-- src/parser.rs `State`: the tokenizer cursor, carrying the span start. -/
inductive State
  | Bang (idx : Nat)
  | Base (idx : Nat)
  | Bounded (idx : Nat)
  | Reroll (idx : Nat)
deriving DecidableEq, Repr

/-- `State::idx`. -/
def State.idx : State → Nat
  | .Bang i => i
  | .Base i => i
  | .Bounded i => i
  | .Reroll i => i

/-- `State::into_bounded`: become `Bounded` keeping the span start. -/
def State.into_bounded (s : State) : State := .Bounded s.idx

/-- `Expression::max`: the magnitude of the value of the term, whether, fixed or bounded. -/
def Expression.max (e : Expression) : Int :=
  match e.value with
  | .Fixed n => n
  | .Bounded n => n

/-- `Expression::is_empty`: a count of zero marks a not-yet-populated term. -/
def Expression.is_empty (e : Expression) : Bool := e.count == 0

/-- The byte-slice `&s[a..b]` on our character-list model. -/
def strSlice (s : List Char) (a b : Nat) : List Char := (s.take b).drop a

/-- src/lib.rs `Expression::apply_state`: apply the span
`s[state.idx()..current]` to the in-progress term, dispatching on the cursor
kind. -/
def Expression.apply_state (e : Expression) (s : List Char) (st : State) (current : Nat) :
    Except Error Expression :=
  let expr := strSlice s st.idx current
  match st with
  | .Bang _ =>
    if expr = [] then .ok { e with explode := some e.max }
    else
      match parseI32 expr with
      | .error err => .error (.ParseInteger err expr)
      | .ok t => .ok { e with explode := some t }
  | .Base _ =>
    if expr = [] then .ok e
    else
      match parse_expression expr with
      | .error err => .error err
      | .ok p => .ok { e with count := p.count, value := .Fixed p.value }
  | .Bounded _ =>
    if expr = [] then .ok e
    else
      match parse_expression expr with
      | .error err => .error err
      | .ok p => .ok { e with count := p.count, value := .Bounded p.value }
  | .Reroll _ =>
    if expr = [] then .ok { e with reroll := some 1 }
    else
      match parseI32 expr with
      | .error err => .error (.ParseInteger err expr)
      | .ok t => .ok { e with reroll := some t }

/-- Rust `u8::to_ascii_lowercase` restricted to our character model. -/
def toAsciiLowercase (c : Char) : Char :=
  if 65 ≤ c.toNat ∧ c.toNat ≤ 90 then Char.ofNat (c.toNat + 32) else c

/-- The byte loop of src/parser.rs `parse`: `rest` is the unread input, `i` the
current offset, `st` the cursor, `e` the in-progress term and `acc` the emitted
terms. At end of input the in-progress term is finalized against the tail span
and appended unconditionally. -/
def parseGo (s : List Char) : List Char → Nat → State → Expression → List Expression →
    Except Error (List Expression)
  | [], _, st, e, acc =>
    match e.apply_state s st s.length with
    | .error err => .error err
    | .ok eF => .ok (acc ++ [eF])
  | c :: rest, i, st, e, acc =>
    if toAsciiLowercase c = 'a' ∨ toAsciiLowercase c = 's' then
      match e.apply_state s st i with
      | .error err => .error err
      | .ok eA =>
        parseGo s rest (i + 1) (.Base (i + 1))
          { Expression.default with
              advantage := toAsciiLowercase c == 'a',
              disadvantage := toAsciiLowercase c == 's' }
          (if eA.is_empty then acc else acc ++ [eA])
    else if toAsciiLowercase c = '+' ∨ toAsciiLowercase c = '-' then
      match e.apply_state s st i with
      | .error err => .error err
      | .ok eA =>
        parseGo s rest (i + 1) (.Base (i + 1))
          { Expression.default with invert := c == '-' }
          (if eA.is_empty then acc else acc ++ [eA])
    else if toAsciiLowercase c = 'd' then
      parseGo s rest (i + 1) st.into_bounded e acc
    else if toAsciiLowercase c = 'r' then
      match e.apply_state s st i with
      | .error err => .error err
      | .ok eA => parseGo s rest (i + 1) (.Reroll (i + 1)) eA acc
    else if toAsciiLowercase c = '!' then
      match e.apply_state s st i with
      | .error err => .error err
      | .ok eA => parseGo s rest (i + 1) (.Bang (i + 1)) eA acc
    else
      parseGo s rest (i + 1) st e acc

/-- src/parser.rs `parse`: run the tokenizer from the initial `Bounded` cursor
at offset 0 with a default in-progress term. -/
def parse (s : List Char) : Except Error (List Expression) :=
  parseGo s s 0 (.Bounded 0) Expression.default []

/-- src/lib.rs `RealizedExpression`. -/
structure RealizedExpression where
  min : Int
  max : Int
  realized : Int
deriving DecidableEq, Repr

/-- `RealizedExpression::fixed`. -/
def RealizedExpression.fixed (n : Int) : RealizedExpression := ⟨n, n, n⟩

/-- src/lib.rs `Expression::apply_advantage_and_disadvantage`: one draw, or two
draws keeping the larger (advantage) or the smaller (disadvantage). The
provider is a pure draw function from call index and upper bound, paired with
the next call index. -/
def Expression.apply_advantage_and_disadvantage (e : Expression) (mx : Int)
    (f : Nat → Int → Int) (pos : Nat) : Int × Nat :=
  match e.advantage, e.disadvantage with
  | true, false => (Max.max (f pos mx) (f (pos + 1) mx), pos + 2)
  | false, true => (Min.min (f pos mx) (f (pos + 1) mx), pos + 2)
  | _, _ => (f pos mx, pos + 1)

/-- src/lib.rs `Expression::roll_with_rerolls_and_explosions`, with explicit
fuel for the unbounded `loop`: explode check first (accumulate and redraw),
then reroll check (discard and redraw), else return accumulator plus candidate.
`none` means the loop did not finish within the fuel. -/
def Expression.roll_with_rerolls_and_explosions (e : Expression) (mx : Int)
    (f : Nat → Int → Int) : Nat → Int → Nat → Option (Int × Nat)
  | 0, _, _ => none
  | fuel + 1, total, pos =>
    match e.apply_advantage_and_disadvantage mx f pos with
    | (result, posN) =>
      if (e.explode.map fun x => decide (result ≥ x)).getD false then
        e.roll_with_rerolls_and_explosions mx f fuel (total + result) posN
      else if (e.reroll.map fun x => decide (x ≥ result)).getD false then
        e.roll_with_rerolls_and_explosions mx f fuel total posN
      else some (total + result, posN)

/-- The `for _ in 0..count` loop of `Expression::realize`: roll `n` dice and
sum the resolved values. -/
def Expression.rollN (e : Expression) (mx : Int) (f : Nat → Int → Int) (fuel : Nat) :
    Nat → Int → Nat → Option (Int × Nat)
  | 0, total, pos => some (total, pos)
  | n + 1, total, pos =>
    match e.roll_with_rerolls_and_explosions mx f fuel 0 pos with
    | none => none
    | some (v, posN) => e.rollN mx f fuel n (total + v) posN

/-- Two's-complement wrap-around into the `i32` range: the result of every
overflowing `i32` operation in a Rust release build (a debug build panics on
the same operation instead). -/
def wrapI32 (z : Int) : Int := (z + 2147483648) % 4294967296 - 2147483648

/-- Rust `u32 as i32`: reinterpret the low 32 bits as two's complement. -/
def u32AsI32 (n : Nat) : Int := wrapI32 (n : Int)

/-- src/lib.rs `Expression::realize`: a `Fixed` term realizes to its constant
without touching the provider; a `Bounded` term rolls `count` dice and applies
the sign inversion and min/max bookkeeping. The bookkeeping is `i32`
arithmetic in the source — `self.count as i32` and `self.count as i32 * max`
and the negations wrap (release mode; a debug build would panic where these
wrap) — so each cast, product and negation passes through `wrapI32`. -/
def Expression.realize (e : Expression) (f : Nat → Int → Int) (fuel pos : Nat) :
    Option (RealizedExpression × Nat) :=
  match e.value with
  | .Fixed n => some (RealizedExpression.fixed n, pos)
  | .Bounded mx =>
    match e.rollN mx f fuel e.count 0 pos with
    | none => none
    | some (total, posN) =>
      if e.invert then
        some (⟨wrapI32 (-(wrapI32 (u32AsI32 e.count * mx))),
               wrapI32 (-(u32AsI32 e.count)), wrapI32 (-total)⟩, posN)
      else
        some (⟨u32AsI32 e.count, wrapI32 (u32AsI32 e.count * mx), total⟩, posN)

/-- src/lib.rs `CompoundExpression`. -/
structure CompoundExpression where
  expressions : List Expression
deriving DecidableEq, Repr

/-- src/lib.rs `RealizedCompoundExpression`. -/
structure RealizedCompoundExpression where
  sum : Int
  realized_expressions : List RealizedExpression
deriving DecidableEq, Repr

/-- The map-with-running-sum of `CompoundExpression::realize`. -/
def realizeAll (f : Nat → Int → Int) (fuel : Nat) :
    List Expression → Int → Nat → Option (Int × List RealizedExpression × Nat)
  | [], sum, pos => some (sum, [], pos)
  | e :: rest, sum, pos =>
    match e.realize f fuel pos with
    | none => none
    | some (re, posN) =>
      match realizeAll f fuel rest (sum + re.realized) posN with
      | none => none
      | some (sF, res, posF) => some (sF, re :: res, posF)

/-- src/lib.rs `CompoundExpression::realize`. -/
def CompoundExpression.realize (ce : CompoundExpression) (f : Nat → Int → Int)
    (fuel pos : Nat) : Option (RealizedCompoundExpression × Nat) :=
  match realizeAll f fuel ce.expressions 0 pos with
  | none => none
  | some (s, res, posF) => some (⟨s, res⟩, posF)

/-- Step 1 of spec §4.2.1, stated from the words of the spec: if `advantage` is set,
draw two independent values and keep the larger; if `disadvantage`, draw two
and keep the smaller; otherwise draw one value. -/
def specDrawCandidate (advantage disadvantage : Bool) (mx : Int)
    (f : Nat → Int → Int) (pos : Nat) : Int × Nat :=
  if advantage then (Max.max (f pos mx) (f (pos + 1) mx), pos + 2)
  else if disadvantage then (Min.min (f pos mx) (f (pos + 1) mx), pos + 2)
  else (f pos mx, pos + 1)

/-- Steps 1-4 of spec §4.2.1, stated from the words of the spec: draw a candidate;
if an explode threshold is set and the candidate is at least it, accumulate and
repeat; else if a reroll threshold is set and the candidate is at most it,
discard and repeat; else resolve to accumulator plus candidate. -/
def specResolveDie (advantage disadvantage : Bool) (explode reroll : Option Int)
    (mx : Int) (f : Nat → Int → Int) : Nat → Int → Nat → Option (Int × Nat)
  | 0, _, _ => none
  | fuel + 1, acc, pos =>
    match specDrawCandidate advantage disadvantage mx f pos with
    | (cand, posN) =>
      if (explode.map fun t => decide (cand ≥ t)).getD false then
        specResolveDie advantage disadvantage explode reroll mx f fuel (acc + cand) posN
      else if (reroll.map fun t => decide (cand ≤ t)).getD false then
        specResolveDie advantage disadvantage explode reroll mx f fuel acc posN
      else some (acc + cand, posN)

/-! Helper lemmas -/

lemma apply_adv_eq_specDraw (e : Expression) (mx : Int) (f : Nat → Int → Int) (pos : Nat)
    (h : ¬(e.advantage = true ∧ e.disadvantage = true)) :
    e.apply_advantage_and_disadvantage mx f pos =
      specDrawCandidate e.advantage e.disadvantage mx f pos := by
  unfold Expression.apply_advantage_and_disadvantage specDrawCandidate
  cases ha : e.advantage <;> cases hd : e.disadvantage <;> simp_all

lemma apply_adv_fst_le (e : Expression) (mx t : Int) (f : Nat → Int → Int) (pos : Nat)
    (hmax : ∀ n, f n mx ≤ t) :
    (e.apply_advantage_and_disadvantage mx f pos).1 ≤ t := by
  unfold Expression.apply_advantage_and_disadvantage
  cases e.advantage <;> cases e.disadvantage <;>
    simp [max_le_iff, min_le_iff, hmax]

/-! Claim theorems -/

/-- Claim C1, counterexample: `parse "a20"` and `parse "a1d20"` do not produce
equal terms — after an advantage boundary the cursor is `Base`, so the span
`20` is stored as a `Fixed` value, while `1d20` passes through the `d`
transition and is stored as `Bounded`. -/
theorem parse_a20_ne_parse_a1d20 : parse "a20".toList ≠ parse "a1d20".toList := by
  decide

/-- Claim C1, amended: `parse "a20"` yields the single term count=1,
value=Fixed(20), advantage=true, while `parse "a1d20"` yields count=1,
value=Bounded(20), advantage=true; the advantage flags agree but the values
differ in kind. -/
theorem parse_a20_fixed_a1d20_bounded :
    parse "a20".toList = .ok [⟨1, .Fixed 20, false, true, false, none, none⟩] ∧
    parse "a1d20".toList = .ok [⟨1, .Bounded 20, false, true, false, none, none⟩] := by
  exact ⟨by decide, by decide⟩

/-- Claim C2: for a term whose advantage and disadvantage flags are not both
set, the single-die loop of the source, `roll_with_rerolls_and_explosions` computes
exactly the procedure of spec §4.2.1 (`specResolveDie`, stated from the words of the
spec): draw a candidate by the advantage/disadvantage rule, check the explode
threshold first (accumulate and redraw), then the reroll threshold (discard and
redraw), else resolve to accumulator plus candidate — at every fuel level,
accumulator and draw position. -/
theorem single_die_resolution (e : Expression) (mx : Int) (f : Nat → Int → Int)
    (h : ¬(e.advantage = true ∧ e.disadvantage = true)) :
    ∀ fuel total pos,
      e.roll_with_rerolls_and_explosions mx f fuel total pos =
        specResolveDie e.advantage e.disadvantage e.explode e.reroll mx f fuel total pos := by
  intro fuel
  induction fuel with
  | zero => intro total pos; rfl
  | succ n ih =>
    intro total pos
    rcases hsd : specDrawCandidate e.advantage e.disadvantage mx f pos with ⟨cand, posN⟩
    simp only [Expression.roll_with_rerolls_and_explosions, specResolveDie,
      apply_adv_eq_specDraw e mx f pos h, hsd, ge_iff_le]
    split
    · exact ih (total + cand) posN
    · split
      · exact ih total posN
      · rfl

/-- Claim C2, witness: a concrete advantage term with reroll threshold 1 and
explode threshold 6 resolves identically under the source loop and the spec
procedure. -/
theorem single_die_resolution_witness :
    Expression.roll_with_rerolls_and_explosions
        ⟨1, .Bounded 6, false, true, false, some 1, some 6⟩ 6
        (fun n _ => (n : Int) + 1) 5 0 0 =
      specResolveDie true false (some 6) (some 1) 6 (fun n _ => (n : Int) + 1) 5 0 0 :=
  single_die_resolution ⟨1, .Bounded 6, false, true, false, some 1, some 6⟩ 6
    (fun n _ => (n : Int) + 1) (by simp) 5 0 0

lemma wrapI32_eq_self (z : Int) (h1 : -(2 ^ 31) ≤ z) (h2 : z < 2 ^ 31) :
    wrapI32 z = z := by
  have e1 : (2 : Int) ^ 31 = 2147483648 := by norm_num
  rw [e1] at h1 h2
  unfold wrapI32
  rw [Int.emod_eq_of_lt (by omega) (by omega)]
  omega

lemma rollN_const_one (e : Expression) (mx : Int)
    (hx : e.explode = none) (hr : e.reroll = none) (ha : e.advantage = false)
    (hd : e.disadvantage = false) :
    ∀ n total pos, e.rollN mx (fun _ _ => 1) 1 n total pos =
      some (total + (n : Int), pos + n) := by
  intro n
  induction n with
  | zero => intro total pos; simp [Expression.rollN]
  | succ k ih =>
    intro total pos
    have hroll : e.roll_with_rerolls_and_explosions mx (fun _ _ => 1) 1 0 pos =
        some (1, pos + 1) := by
      simp [Expression.roll_with_rerolls_and_explosions,
        Expression.apply_advantage_and_disadvantage, ha, hd, hx, hr]
    simp only [Expression.rollN, hroll, ih]
    refine congrArg some (Prod.ext ?_ ?_)
    · push_cast
      ring
    · simp
      omega

lemma realize_bounded_eq (e : Expression) (mx total : Int) (f : Nat → Int → Int)
    (fuel pos posN : Nat) (hv : e.value = .Bounded mx) (hi : e.invert = false)
    (hroll : e.rollN mx f fuel e.count 0 pos = some (total, posN)) :
    e.realize f fuel pos =
      some (⟨u32AsI32 e.count, wrapI32 (u32AsI32 e.count * mx), total⟩, posN) := by
  simp [Expression.realize, hv, hroll, hi]

/-- Claim C3, counterexample: the parseable term `2000000000d3` realizes (with
a constant provider) to a `max` field of 1705032704 — the i32-wrapped value of
2000000000 * 3 — not to count * faceCount = 6000000000, so the stated formula
fails on the code (a Rust debug build panics at the same multiplication). -/
theorem bounded_bounds_wrap :
    parse "2000000000d3".toList =
      .ok [⟨2000000000, .Bounded 3, false, false, false, none, none⟩] ∧
    Expression.realize ⟨2000000000, .Bounded 3, false, false, false, none, none⟩
        (fun _ _ => 1) 1 0 =
      some (⟨2000000000, 1705032704, 2000000000⟩, 2000000000) ∧
    (1705032704 : Int) ≠ 2000000000 * 3 := by
  refine ⟨by decide, ?_, by decide⟩
  have h := rollN_const_one ⟨2000000000, .Bounded 3, false, false, false, none, none⟩ 3
    rfl rfl rfl rfl 2000000000 0 0
  have h2 := realize_bounded_eq ⟨2000000000, .Bounded 3, false, false, false, none, none⟩ 3
    (0 + ((2000000000 : Nat) : Int)) (fun _ _ => 1) 1 0 (0 + 2000000000) rfl rfl h
  rw [h2]
  decide

/-- Claim C3 (amended): realizing a `Bounded(mx)` term rolls `count` dice (the
`rollN` loop) summing into `total`, and computes the bookkeeping in `i32`
arithmetic: with `invert` set, realized = wrap32(-total),
max = wrap32(-(count as i32)), min = wrap32(-wrap32((count as i32) * mx));
otherwise realized = total, max = wrap32((count as i32) * mx),
min = count as i32. Whenever count, count * mx and total lie strictly inside
the i32 range, these coincide with the originally stated formulas
(realized = ±total, max/min = ±count, ±(count * mx)). -/
theorem bounded_realization (e : Expression) (mx total : Int) (f : Nat → Int → Int)
    (fuel pos posN : Nat) (hv : e.value = .Bounded mx)
    (hroll : e.rollN mx f fuel e.count 0 pos = some (total, posN)) :
    ∃ re, e.realize f fuel pos = some (re, posN) ∧
      (e.invert = true →
        re.realized = wrapI32 (-total) ∧
        re.max = wrapI32 (-(u32AsI32 e.count)) ∧
        re.min = wrapI32 (-(wrapI32 (u32AsI32 e.count * mx)))) ∧
      (e.invert = false →
        re.realized = total ∧
        re.max = wrapI32 (u32AsI32 e.count * mx) ∧
        re.min = u32AsI32 e.count) ∧
      ((e.count : Int) < 2 ^ 31 → -(2 ^ 31) < (e.count : Int) * mx →
        (e.count : Int) * mx < 2 ^ 31 → -(2 ^ 31) < total → total < 2 ^ 31 →
        (e.invert = true →
          re.realized = -total ∧ re.max = -(e.count : Int) ∧
            re.min = -((e.count : Int) * mx)) ∧
        (e.invert = false →
          re.realized = total ∧ re.max = (e.count : Int) * mx ∧
            re.min = (e.count : Int))) := by
  have hcount : u32AsI32 e.count = wrapI32 (e.count : Int) := rfl
  cases hi : e.invert
  · refine ⟨⟨u32AsI32 e.count, wrapI32 (u32AsI32 e.count * mx), total⟩,
      by simp [Expression.realize, hv, hroll, hi],
      by simp [hi], fun _ => ⟨rfl, rfl, rfl⟩, ?_⟩
    intro hc hlo hhi hlo2 hhi2
    have hc0 : (0 : Int) ≤ (e.count : Int) := Int.ofNat_nonneg e.count
    have hce : u32AsI32 e.count = (e.count : Int) := by
      rw [hcount, wrapI32_eq_self _ (by omega) hc]
    refine ⟨by simp [hi], fun _ => ?_⟩
    refine ⟨rfl, ?_, ?_⟩
    · show wrapI32 (u32AsI32 e.count * mx) = (e.count : Int) * mx
      rw [hce, wrapI32_eq_self _ (le_of_lt hlo) hhi]
    · exact hce
  · refine ⟨⟨wrapI32 (-(wrapI32 (u32AsI32 e.count * mx))),
      wrapI32 (-(u32AsI32 e.count)), wrapI32 (-total)⟩,
      by simp [Expression.realize, hv, hroll, hi],
      fun _ => ⟨rfl, rfl, rfl⟩, by simp [hi], ?_⟩
    intro hc hlo hhi hlo2 hhi2
    have hc0 : (0 : Int) ≤ (e.count : Int) := Int.ofNat_nonneg e.count
    have hce : u32AsI32 e.count = (e.count : Int) := by
      rw [hcount, wrapI32_eq_self _ (by omega) hc]
    refine ⟨fun _ => ?_, by simp [hi]⟩
    refine ⟨?_, ?_, ?_⟩
    · show wrapI32 (-total) = -total
      exact wrapI32_eq_self _ (by omega) (by omega)
    · show wrapI32 (-(u32AsI32 e.count)) = -(e.count : Int)
      rw [hce]
      exact wrapI32_eq_self _ (by omega) (by omega)
    · show wrapI32 (-(wrapI32 (u32AsI32 e.count * mx))) = -((e.count : Int) * mx)
      rw [hce, wrapI32_eq_self _ (le_of_lt hlo) hhi]
      exact wrapI32_eq_self _ (by omega) (by omega)

/-- Claim C3, witness: `2d6` with constant draws of 3 (no overflow anywhere)
realizes with total 6, wrapped bounds equal to the plain bounds, and the
in-range conjunct gives max 12 and min 2, consuming two draws. -/
theorem bounded_realization_witness :
    ∃ re, Expression.realize ⟨2, .Bounded 6, false, false, false, none, none⟩
        (fun _ _ => 3) 1 0 = some (re, 2) ∧
      ((false : Bool) = true →
        re.realized = wrapI32 (-6) ∧
        re.max = wrapI32 (-(u32AsI32 2)) ∧
        re.min = wrapI32 (-(wrapI32 (u32AsI32 2 * 6)))) ∧
      ((false : Bool) = false →
        re.realized = 6 ∧
        re.max = wrapI32 (u32AsI32 2 * 6) ∧
        re.min = u32AsI32 2) ∧
      (((2 : Nat) : Int) < 2 ^ 31 → -(2 ^ 31) < ((2 : Nat) : Int) * 6 →
        ((2 : Nat) : Int) * 6 < 2 ^ 31 → -(2 ^ 31) < (6 : Int) → (6 : Int) < 2 ^ 31 →
        ((false : Bool) = true →
          re.realized = -6 ∧ re.max = -((2 : Nat) : Int) ∧
            re.min = -(((2 : Nat) : Int) * 6)) ∧
        ((false : Bool) = false →
          re.realized = 6 ∧ re.max = ((2 : Nat) : Int) * 6 ∧
            re.min = ((2 : Nat) : Int))) :=
  bounded_realization ⟨2, .Bounded 6, false, false, false, none, none⟩ 6 6
    (fun _ _ => 3) 1 0 2 rfl (by decide)

/-- Claim C4: realizing a `Fixed(n)` term yields realized = min = max = n,
leaves the draw position untouched (no randomness consumed), and ignores the
`invert` flag entirely. -/
theorem fixed_realization (e : Expression) (n : Int) (f : Nat → Int → Int)
    (fuel pos : Nat) (hv : e.value = .Fixed n) :
    e.realize f fuel pos = some (⟨n, n, n⟩, pos) := by
  simp [Expression.realize, hv, RealizedExpression.fixed]

/-- Claim C4, witness: `"-3"` parses to a `Fixed 3` term with `invert := true`,
and that term still realizes to +3 with no draw consumed. -/
theorem fixed_realization_witness :
    parse "-3".toList = .ok [⟨1, .Fixed 3, true, false, false, none, none⟩] ∧
    Expression.realize ⟨1, .Fixed 3, true, false, false, none, none⟩
        (fun _ _ => 5) 3 0 = some (⟨3, 3, 3⟩, 0) :=
  ⟨by decide, fixed_realization ⟨1, .Fixed 3, true, false, false, none, none⟩ 3
    (fun _ _ => 5) 3 0 rfl⟩

/-- Claim C7, counterexample: `parse "d6"` does not succeed — the span `d6`
splits into an empty count half and `6`, and the empty count fails `u32`
parsing, so the whole parse fails with an integer-parse error. -/
theorem parse_d6_fails :
    parse "d6".toList = .error (.ParseInteger .empty "d6".toList) := by
  decide

/-- Claim C7, amended: the count defaults to 1 only when the dice separator is
absent from the span — `parse "6"` yields count=1, value=Bounded(6) — while an
input whose span starts with the separator, such as `"d6"`, fails with an
integer-parse error on the empty count half. -/
theorem default_count_without_separator :
    parse "6".toList = .ok [⟨1, .Bounded 6, false, false, false, none, none⟩] ∧
    parse "d6".toList = .error (.ParseInteger .empty "d6".toList) := by
  exact ⟨by decide, by decide⟩

/-- Claim C8: when a term has a reroll threshold at least every value the
provider can return (and no explode threshold), the single-die loop never
returns: it is `none` for every fuel bound, accumulator and draw position — no
iteration cap exists. -/
theorem reroll_loop_unbounded (e : Expression) (mx t : Int) (f : Nat → Int → Int)
    (hr : e.reroll = some t) (hx : e.explode = none) (hmax : ∀ n, f n mx ≤ t) :
    ∀ fuel total pos, e.roll_with_rerolls_and_explosions mx f fuel total pos = none := by
  intro fuel
  induction fuel with
  | zero => intro total pos; rfl
  | succ n ih =>
    intro total pos
    rcases hsd : e.apply_advantage_and_disadvantage mx f pos with ⟨cand, posN⟩
    have hc : cand ≤ t := by
      have h0 := apply_adv_fst_le e mx t f pos hmax
      rw [hsd] at h0
      exact h0
    simp [Expression.roll_with_rerolls_and_explosions, hsd, hx, hr, hc, ih]

/-- Claim C8, witness: `"1d6r6"` parses to a reroll-6 d6 term, and with a
provider that always draws 1 (≤ 6) its single-die loop is still unresolved
after 100 iterations. -/
theorem reroll_loop_unbounded_witness :
    parse "1d6r6".toList = .ok [⟨1, .Bounded 6, false, false, false, some 6, none⟩] ∧
    Expression.roll_with_rerolls_and_explosions
        ⟨1, .Bounded 6, false, false, false, some 6, none⟩ 6
        (fun _ _ => 1) 100 0 0 = none :=
  ⟨by decide, reroll_loop_unbounded ⟨1, .Bounded 6, false, false, false, some 6, none⟩
    6 6 (fun _ _ => 1) rfl rfl (fun _ => by show (1 : Int) ≤ 6; decide) 100 0 0⟩

/-- Claim C9: realization is deterministic given deterministic draws — two
providers returning the same value at every call index and bound realize any
compound expression to the same result (same sum, same realized term sequence,
same final draw position), for every fuel bound. -/
theorem realization_deterministic (ce : CompoundExpression) (f g : Nat → Int → Int)
    (fuel pos : Nat) (h : ∀ n mx, f n mx = g n mx) :
    ce.realize f fuel pos = ce.realize g fuel pos := by
  have hfg : f = g := funext fun n => funext fun mx => h n mx
  rw [hfg]

/-- Claim C9, witness: `2d6` realized with two syntactically different but
pointwise-equal providers yields the same result. -/
theorem realization_deterministic_witness :
    CompoundExpression.realize ⟨[⟨2, .Bounded 6, false, false, false, none, none⟩]⟩
        (fun _ _ => 2) 3 0 =
      CompoundExpression.realize ⟨[⟨2, .Bounded 6, false, false, false, none, none⟩]⟩
        (fun _ _ => 1 + 1) 3 0 :=
  realization_deterministic ⟨[⟨2, .Bounded 6, false, false, false, none, none⟩]⟩
    (fun _ _ => 2) (fun _ _ => 1 + 1) 3 0 (fun _ _ => by show (2 : Int) = 1 + 1; decide)

/-! Split lemmas for count and value pair parsing -/

lemma splitOnSep_ne_nil (l : List Char) : splitOnSep l ≠ [] := by
  cases l with
  | nil => simp [splitOnSep]
  | cons c cs =>
    simp only [splitOnSep]
    split
    · simp
    · split <;> simp

lemma splitOnSep_no_sep (l : List Char) (h : l.filter isDiceSep = []) :
    splitOnSep l = [l] := by
  induction l with
  | nil => rfl
  | cons c cs ih =>
    by_cases hc : isDiceSep c
    · rw [List.filter_cons, if_pos hc] at h
      exact absurd h (by simp)
    · rw [List.filter_cons, if_neg hc] at h
      simp [splitOnSep, hc, ih h]

lemma splitOnSep_one_sep (a b : List Char) (c : Char) (hc : isDiceSep c = true)
    (ha : a.filter isDiceSep = []) (hb : b.filter isDiceSep = []) :
    splitOnSep (a ++ c :: b) = [a, b] := by
  induction a with
  | nil => simp [splitOnSep, hc, splitOnSep_no_sep b hb]
  | cons x xs ih =>
    by_cases hx : isDiceSep x
    · rw [List.filter_cons, if_pos hx] at ha
      exact absurd ha (by simp)
    · rw [List.filter_cons, if_neg hx] at ha
      simp [splitOnSep, hx, ih ha]

lemma splitOnSep_length (l : List Char) :
    (splitOnSep l).length = (l.filter isDiceSep).length + 1 := by
  induction l with
  | nil => rfl
  | cons c cs ih =>
    by_cases hc : isDiceSep c
    · simp [splitOnSep, hc, List.filter_cons, ih]
    · rcases hs : splitOnSep cs with _ | ⟨h, t⟩
      · exact absurd hs (splitOnSep_ne_nil cs)
      · rw [hs] at ih
        simp [splitOnSep, hc, List.filter_cons, hs]
        simpa using ih

/-- Claim C5, counterexample: for `"2dX"` the integer-parse error carries the
full span `2dX` as its only text payload; it does not name the failing half
`X` — the produced error is distinct from one carrying the text of the half. -/
theorem half_text_not_in_error :
    parse_expression "2dX".toList =
      .error (.ParseInteger .invalidDigit "2dX".toList) ∧
    Error.ParseInteger .invalidDigit "2dX".toList ≠
      Error.ParseInteger .invalidDigit "X".toList := by
  exact ⟨by decide, by decide⟩

/-- Claim C5, amended: splitting a span on the dice separator: zero separators
give count 1 and the whole span parsed as the value; exactly one separator
gives left half as count and right half as value; two or more separators give a
malformed-expression error; a half failing integer parsing gives an
integer-parse error carrying the parse-failure kind and the full span. -/
theorem count_value_pair_parsing (expr l r : List Char) (c : Char) :
    (expr.filter isDiceSep = [] →
      parse_expression expr =
        match parseI32 expr with
        | .error e => .error (.ParseInteger e expr)
        | .ok v => .ok ⟨1, v⟩) ∧
    (expr = l ++ c :: r → isDiceSep c = true →
      l.filter isDiceSep = [] → r.filter isDiceSep = [] →
      parse_expression expr =
        match parseU32 l with
        | .error e => .error (.ParseInteger e expr)
        | .ok cnt =>
          match parseI32 r with
          | .error e => .error (.ParseInteger e expr)
          | .ok v => .ok ⟨cnt, v⟩) ∧
    (2 ≤ (expr.filter isDiceSep).length →
      parse_expression expr = .error (.BadExpression expr)) := by
  refine ⟨?_, ?_, ?_⟩
  · intro h
    simp [parse_expression, splitOnSep_no_sep expr h]
  · intro he hc hl hr
    subst he
    simp [parse_expression, splitOnSep_one_sep l r c hc hl hr]
  · intro h
    have hlen : 3 ≤ (splitOnSep expr).length := by
      rw [splitOnSep_length]
      omega
    rcases hs : splitOnSep expr with _ | ⟨a, _ | ⟨b, _ | ⟨d, t⟩⟩⟩
    · rw [hs] at hlen; simp at hlen
    · rw [hs] at hlen; simp at hlen
    · rw [hs] at hlen; simp at hlen
    · simp [parse_expression, hs]

/-- Claim C5, witness: `"20"` has no separator and parses as count 1 value 20;
`"2d6"` has one separator and parses as count 2 value 6; `"2d6d4"` has two
separators and is a malformed expression. -/
theorem count_value_pair_parsing_witness :
    parse_expression "20".toList = .ok ⟨1, 20⟩ ∧
    parse_expression "2d6".toList = .ok ⟨2, 6⟩ ∧
    parse_expression "2d6d4".toList = .error (.BadExpression "2d6d4".toList) :=
  ⟨((count_value_pair_parsing "20".toList [] [] 'd').1 (by decide)).trans (by decide),
   ((count_value_pair_parsing "2d6".toList ['2'] ['6'] 'd').2.1 (by decide) (by decide)
      (by decide) (by decide)).trans (by decide),
   (count_value_pair_parsing "2d6d4".toList [] [] 'd').2.2 (by decide)⟩

/-! Tokenizer invariants -/

lemma dropLast_append_single {α : Type} (l : List α) (a : α) :
    (l ++ [a]).dropLast = l := by
  simp

lemma apply_state_preserves_flags (e eN : Expression) (s : List Char) (st : State)
    (cur : Nat) (h : e.apply_state s st cur = .ok eN) :
    eN.advantage = e.advantage ∧ eN.disadvantage = e.disadvantage := by
  cases st <;>
    simp only [Expression.apply_state] at h <;>
    split at h <;>
    (try split at h) <;>
    first
      | (injection h with h2; subst h2; exact ⟨rfl, rfl⟩)
      | (injection h)

lemma parseGo_interior_nonempty (s : List Char) :
    ∀ rest i st e acc es, parseGo s rest i st e acc = .ok es →
      (∀ x ∈ acc, x.count ≠ 0) → ∀ x ∈ es.dropLast, x.count ≠ 0 := by
  intro rest
  induction rest with
  | nil =>
    intro i st e acc es h hacc
    cases ha : e.apply_state s st s.length with
    | error err => simp [parseGo, ha] at h
    | ok eF =>
      simp only [parseGo, ha] at h
      injection h with h2
      subst h2
      rw [dropLast_append_single]
      exact hacc
  | cons c rest ih =>
    intro i st e acc es h hacc
    simp only [parseGo] at h
    split at h
    · cases ha : e.apply_state s st i with
      | error err => simp [ha] at h
      | ok eA =>
        simp only [ha] at h
        refine ih _ _ _ _ _ h ?_
        intro x hx
        by_cases hemp : eA.is_empty = true
        · rw [if_pos hemp] at hx
          exact hacc x hx
        · rw [if_neg hemp] at hx
          rcases List.mem_append.mp hx with hx | hx
          · exact hacc x hx
          · obtain rfl := List.mem_singleton.mp hx
            simpa [Expression.is_empty] using hemp
    · split at h
      · cases ha : e.apply_state s st i with
        | error err => simp [ha] at h
        | ok eA =>
          simp only [ha] at h
          refine ih _ _ _ _ _ h ?_
          intro x hx
          by_cases hemp : eA.is_empty = true
          · rw [if_pos hemp] at hx
            exact hacc x hx
          · rw [if_neg hemp] at hx
            rcases List.mem_append.mp hx with hx | hx
            · exact hacc x hx
            · obtain rfl := List.mem_singleton.mp hx
              simpa [Expression.is_empty] using hemp
      · split at h
        · exact ih _ _ _ _ _ h hacc
        · split at h
          · cases ha : e.apply_state s st i with
            | error err => simp [ha] at h
            | ok eA =>
              simp only [ha] at h
              exact ih _ _ _ _ _ h hacc
          · split at h
            · cases ha : e.apply_state s st i with
              | error err => simp [ha] at h
              | ok eA =>
                simp only [ha] at h
                exact ih _ _ _ _ _ h hacc
            · exact ih _ _ _ _ _ h hacc

/-- Claim C6, counterexample: `parse "1+"` succeeds and its term sequence ends
with a not-yet-populated term of count 0 — the final term is appended without
the emptiness filter. -/
theorem trailing_zero_count_term :
    parse "1+".toList = .ok
      [⟨1, .Bounded 1, false, false, false, none, none⟩,
       ⟨0, .Fixed 0, false, false, false, none, none⟩] ∧
    (⟨0, .Fixed 0, false, false, false, none, none⟩ : Expression).count = 0 := by
  exact ⟨by decide, rfl⟩

/-- Claim C6, amended: the emptiness filter applies only at the interior
emitting boundaries (`a`/`s`/`+`/`-`): in any successful parse every term
except possibly the last has nonzero count, while the final term is appended
unconditionally and may have count 0. -/
theorem interior_terms_nonempty (s : List Char) (es : List Expression)
    (h : parse s = .ok es) : ∀ x ∈ es.dropLast, x.count ≠ 0 :=
  parseGo_interior_nonempty s s 0 (.Bounded 0) Expression.default [] es h (by simp)

/-- Claim C6, witness: in the parse of `"1+"` the interior term has nonzero
count. -/
theorem interior_terms_nonempty_witness :
    (⟨1, .Bounded 1, false, false, false, none, none⟩ : Expression).count ≠ 0 :=
  interior_terms_nonempty "1+".toList
    [⟨1, .Bounded 1, false, false, false, none, none⟩,
     ⟨0, .Fixed 0, false, false, false, none, none⟩] (by decide)
    ⟨1, .Bounded 1, false, false, false, none, none⟩ (by decide)

lemma parseGo_flags (s : List Char) :
    ∀ rest i st e acc es, parseGo s rest i st e acc = .ok es →
      ¬(e.advantage = true ∧ e.disadvantage = true) →
      (∀ x ∈ acc, ¬(x.advantage = true ∧ x.disadvantage = true)) →
      ∀ x ∈ es, ¬(x.advantage = true ∧ x.disadvantage = true) := by
  intro rest
  induction rest with
  | nil =>
    intro i st e acc es h he hacc
    cases ha : e.apply_state s st s.length with
    | error err => simp [parseGo, ha] at h
    | ok eF =>
      simp only [parseGo, ha] at h
      injection h with h2
      subst h2
      intro x hx
      rcases List.mem_append.mp hx with hx | hx
      · exact hacc x hx
      · obtain rfl := List.mem_singleton.mp hx
        obtain ⟨h1, h2⟩ := apply_state_preserves_flags e x s st s.length ha
        rw [h1, h2]
        exact he
  | cons c rest ih =>
    intro i st e acc es h he hacc
    simp only [parseGo] at h
    split at h
    · cases ha : e.apply_state s st i with
      | error err => simp [ha] at h
      | ok eA =>
        simp only [ha] at h
        refine ih _ _ _ _ _ h ?_ ?_
        · rintro ⟨h1, h2⟩
          simp only [beq_iff_eq] at h1 h2
          rw [h1] at h2
          exact absurd h2 (by decide)
        · intro x hx
          by_cases hemp : eA.is_empty = true
          · rw [if_pos hemp] at hx
            exact hacc x hx
          · rw [if_neg hemp] at hx
            rcases List.mem_append.mp hx with hx | hx
            · exact hacc x hx
            · obtain rfl := List.mem_singleton.mp hx
              obtain ⟨h1, h2⟩ := apply_state_preserves_flags e x s st i ha
              rw [h1, h2]
              exact he
    · split at h
      · cases ha : e.apply_state s st i with
        | error err => simp [ha] at h
        | ok eA =>
          simp only [ha] at h
          refine ih _ _ _ _ _ h ?_ ?_
          · rintro ⟨h1, h2⟩
            exact absurd h1 (by simp [Expression.default])
          · intro x hx
            by_cases hemp : eA.is_empty = true
            · rw [if_pos hemp] at hx
              exact hacc x hx
            · rw [if_neg hemp] at hx
              rcases List.mem_append.mp hx with hx | hx
              · exact hacc x hx
              · obtain rfl := List.mem_singleton.mp hx
                obtain ⟨h1, h2⟩ := apply_state_preserves_flags e x s st i ha
                rw [h1, h2]
                exact he
      · split at h
        · exact ih _ _ _ _ _ h he hacc
        · split at h
          · cases ha : e.apply_state s st i with
            | error err => simp [ha] at h
            | ok eA =>
              simp only [ha] at h
              refine ih _ _ _ _ _ h ?_ hacc
              obtain ⟨h1, h2⟩ := apply_state_preserves_flags e eA s st i ha
              rw [h1, h2]
              exact he
          · split at h
            · cases ha : e.apply_state s st i with
              | error err => simp [ha] at h
              | ok eA =>
                simp only [ha] at h
                refine ih _ _ _ _ _ h ?_ hacc
                obtain ⟨h1, h2⟩ := apply_state_preserves_flags e eA s st i ha
                rw [h1, h2]
                exact he
            · exact ih _ _ _ _ _ h he hacc

/-- Claim C10: every term of a successful parse has at most one of the
advantage and disadvantage flags set — a fresh term starts with both false, an
`a` boundary sets only advantage, an `s` boundary sets only disadvantage, and
finalization never touches either flag, so the both-true combination is
unreachable from the parser. -/
theorem advantage_disadvantage_exclusive (s : List Char) (es : List Expression)
    (h : parse s = .ok es) :
    ∀ x ∈ es, ¬(x.advantage = true ∧ x.disadvantage = true) :=
  parseGo_flags s s 0 (.Bounded 0) Expression.default [] es h
    (by simp [Expression.default]) (by simp)

/-- Claim C10, witness: the advantage term of `parse "a20+s3"` does not carry
both flags. -/
theorem advantage_disadvantage_exclusive_witness :
    ¬((⟨1, .Fixed 20, false, true, false, none, none⟩ : Expression).advantage = true ∧
      (⟨1, .Fixed 20, false, true, false, none, none⟩ : Expression).disadvantage = true) :=
  advantage_disadvantage_exclusive "a20+s3".toList
    [⟨1, .Fixed 20, false, true, false, none, none⟩,
     ⟨1, .Fixed 3, false, false, true, none, none⟩] (by decide)
    ⟨1, .Fixed 20, false, true, false, none, none⟩ (by decide)
